import Mathlib

set_option autoImplicit false
set_option maxRecDepth 4000

/-!
Shallow embedding of the 2PC operation log and consistency checker of this
repository (src/message.rs, src/oplog.rs, src/checker.rs).

Machine integers (u32) are modelled as Nat with explicit reduction modulo
2^32 at the points where the Rust code can wrap: AtomicU32::fetch_add
always wraps, and the seqno increment in OpLog::append wraps in release
builds (in debug builds it panics at the same boundary, so every claim
settled at a wrap boundary fails under either semantics).

Log files are modelled line by line.  One line is either a JSON value (the
result of serde_json::from_str) or malformed text that from_str rejects;
the JSON value type carries exactly the shapes a ProtocolMessage record
uses (strings, integers, objects).  A file that cannot be opened is
modelled as the absence of a line list (Option).
-/

/-- The u32 modulus 2^32. -/
def u32Mod : Nat := 2 ^ 32

/-- MessageType from src/message.rs. -/
inductive MessageType where
  | ClientRequest
  | CoordinatorPropose
  | ParticipantVoteCommit
  | ParticipantVoteAbort
  | CoordinatorAbort
  | CoordinatorCommit
  | ClientResultCommit
  | ClientResultAbort
  | CoordinatorExit
deriving DecidableEq, Repr

/-- ProtocolMessage from src/message.rs; uid and opid are u32 values. -/
structure ProtocolMessage where
  mtype : MessageType
  uid : Nat
  txid : String
  senderid : String
  opid : Nat
deriving DecidableEq, Repr

/-- The initial value of the process-wide COUNTER in src/message.rs. -/
def counterInit : Nat := 1

/-- AtomicU32::fetch_add(1): returns the previous value and stores the
wrapped successor. -/
def fetchAdd (c : Nat) : Nat × Nat := (c, (c + 1) % u32Mod)

/-- ProtocolMessage::generate from src/message.rs: the uid is the value
returned by COUNTER.fetch_add(1).  The process-wide counter is threaded
explicitly as state. -/
def ProtocolMessage.generate (c : Nat) (t : MessageType) (tid : String)
    (sid : String) (oid : Nat) : ProtocolMessage × Nat :=
  (⟨t, (fetchAdd c).1, tid, sid, oid⟩, (fetchAdd c).2)

/-- serde_json::Value, restricted to the shapes a ProtocolMessage record
can use. -/
inductive Json where
  | str (s : String)
  | num (n : Int)
  | obj (fields : List (String × Json))

/-- serde serialization of a unit enum variant: its name as a JSON string. -/
def MessageType.variantName : MessageType → String
  | .ClientRequest => "ClientRequest"
  | .CoordinatorPropose => "CoordinatorPropose"
  | .ParticipantVoteCommit => "ParticipantVoteCommit"
  | .ParticipantVoteAbort => "ParticipantVoteAbort"
  | .CoordinatorAbort => "CoordinatorAbort"
  | .CoordinatorCommit => "CoordinatorCommit"
  | .ClientResultCommit => "ClientResultCommit"
  | .ClientResultAbort => "ClientResultAbort"
  | .CoordinatorExit => "CoordinatorExit"

/-- serde deserialization of a unit enum variant from its name. -/
def MessageType.ofVariantName (s : String) : Option MessageType :=
  if s = "ClientRequest" then some .ClientRequest
  else if s = "CoordinatorPropose" then some .CoordinatorPropose
  else if s = "ParticipantVoteCommit" then some .ParticipantVoteCommit
  else if s = "ParticipantVoteAbort" then some .ParticipantVoteAbort
  else if s = "CoordinatorAbort" then some .CoordinatorAbort
  else if s = "CoordinatorCommit" then some .CoordinatorCommit
  else if s = "ClientResultCommit" then some .ClientResultCommit
  else if s = "ClientResultAbort" then some .ClientResultAbort
  else if s = "CoordinatorExit" then some .CoordinatorExit
  else none

/-- serde_json::to_writer on a ProtocolMessage: the derived Serialize
writes an object with the five fields in declaration order. -/
def encodeMessage (m : ProtocolMessage) : Json :=
  .obj [("mtype", .str m.mtype.variantName), ("uid", .num (m.uid : Int)),
        ("txid", .str m.txid), ("senderid", .str m.senderid),
        ("opid", .num (m.opid : Int))]

/-- Field lookup in a JSON object (serde_json object maps have distinct
keys; the first match suffices). -/
def jsonField (name : String) : List (String × Json) → Option Json
  | [] => none
  | (k, v) :: rest => if k = name then some v else jsonField name rest

/-- serde deserialization of a u32 field from a JSON value. -/
def decodeU32 : Json → Option Nat
  | .num n => if 0 ≤ n ∧ n < (u32Mod : Int) then some n.toNat else none
  | _ => none

/-- serde deserialization of a String field from a JSON value. -/
def decodeStr : Json → Option String
  | .str s => some s
  | _ => none

/-- serde deserialization of a MessageType field from a JSON value. -/
def decodeMessageType : Json → Option MessageType
  | .str s => MessageType.ofVariantName s
  | _ => none

/-- ProtocolMessage::from_string from src/message.rs, applied to the Value
produced by serde_json::from_str: serde_json::from_value with the derived
Deserialize requires all five fields to be present with the right types. -/
def ProtocolMessage.from_string (j : Json) : Option ProtocolMessage :=
  match j with
  | .obj fields =>
      (jsonField "mtype" fields).bind fun jm =>
      (decodeMessageType jm).bind fun t =>
      (jsonField "uid" fields).bind fun ju =>
      (decodeU32 ju).bind fun u =>
      (jsonField "txid" fields).bind fun jt =>
      (decodeStr jt).bind fun tid =>
      (jsonField "senderid" fields).bind fun js =>
      (decodeStr js).bind fun sid =>
      (jsonField "opid" fields).bind fun jo =>
      (decodeU32 jo).bind fun oid =>
      some ⟨t, u, tid, sid, oid⟩
  | _ => none

/-- One line of a log file: either text that serde_json::from_str parses
to a JSON value, or text it rejects. -/
inductive LogLine where
  | json (j : Json)
  | malformed

/-- Parsing one line as OpLog::from_file does: serde_json::from_str
followed by ProtocolMessage::from_string; any failure is a parse
failure. -/
def parseLine : LogLine → Option ProtocolMessage
  | .json j => ProtocolMessage.from_string j
  | .malformed => none

/-- std HashMap insert, on an association list with distinct keys:
replaces an existing binding, otherwise adds one. -/
def hmInsert (k : Nat) (v : ProtocolMessage) :
    List (Nat × ProtocolMessage) → List (Nat × ProtocolMessage)
  | [] => [(k, v)]
  | (k0, v0) :: rest =>
      if k0 = k then (k, v) :: rest else (k0, v0) :: hmInsert k v rest

/-- std HashMap lookup on the association list model. -/
def hmGet (k : Nat) : List (Nat × ProtocolMessage) → Option ProtocolMessage
  | [] => none
  | (k0, v0) :: rest => if k0 = k then some v0 else hmGet k rest

/-- The OpLog fields from src/oplog.rs that the claims concern: the
sequence counter and the id-keyed map.  The backing file is modelled
separately as the list of lines written so far. -/
structure OpLog where
  seqno : Nat
  log : List (Nat × ProtocolMessage)
deriving DecidableEq, Repr

/-- A failed unwrap in OpLog::from_file: File::open, or the parse of one
line. -/
inductive LoadError where
  | openFailed
  | parseFailed
deriving DecidableEq, Repr

/-- The read loop of OpLog::from_file: parse each line, track the maximum
uid seen, insert keyed by the message's own uid. -/
def fromFileLoop : List LogLine → Nat → List (Nat × ProtocolMessage) →
    Except LoadError (Nat × List (Nat × ProtocolMessage))
  | [], seqno, l => .ok (seqno, l)
  | ln :: rest, seqno, l =>
      match parseLine ln with
      | none => .error .parseFailed
      | some pm =>
          fromFileLoop rest (if pm.uid > seqno then pm.uid else seqno)
            (hmInsert pm.uid pm l)

/-- OpLog::from_file from src/oplog.rs; the none case models a file that
cannot be opened. -/
def OpLog.from_file : Option (List LogLine) → Except LoadError OpLog
  | none => .error .openFailed
  | some lines =>
      match fromFileLoop lines 0 [] with
      | .error e => .error e
      | .ok sl => .ok ⟨sl.1, sl.2⟩

/-- One process as the claims see it: the process-wide message counter,
one OpLog, and the content of the log's backing file. -/
structure ProcState where
  counter : Nat
  oplog : OpLog
  file : List LogLine

/-- OpLog::new, in a process whose counter currently holds c: empty map,
seqno 0, truncated file. -/
def OpLog.new (c : Nat) : ProcState :=
  ⟨c, ⟨0, []⟩, []⟩

/-- OpLog::append from src/oplog.rs: increment seqno (u32), take the new
seqno as the map key, build the message with ProtocolMessage::generate
(whose uid comes from the process-wide counter), write its serialization
as one line of the file, then insert into the map. -/
def OpLog.append (st : ProcState) (t : MessageType) (tid : String)
    (sender : String) (op : Nat) : ProcState :=
  let seqno := (st.oplog.seqno + 1) % u32Mod
  let id := seqno
  let pc := ProtocolMessage.generate st.counter t tid sender op
  { counter := pc.2,
    oplog := ⟨seqno, hmInsert id pc.1 st.oplog.log⟩,
    file := st.file ++ [LogLine.json (encodeMessage pc.1)] }

/-- Which assert! in check_participant fired. -/
inductive CheckFailure where
  | commitBound
  | localCommitBound
  | abortBound
  | perTxid (txid : String)
deriving DecidableEq, Repr

/-- The number of messages in a list whose txid is the given one (the
found_local_txid / _found_txid counting loops of check_participant). -/
def countTxid (txid : String) (l : List ProtocolMessage) : Nat :=
  (l.filter fun m => decide (m.txid = txid)).length

/-- Filtering a log's messages by kind, as the .filter on mtype in
src/checker.rs. -/
def filterType (t : MessageType) (l : List ProtocolMessage) :
    List ProtocolMessage :=
  l.filter fun m => decide (m.mtype = t)

/-- The per-transaction loop of check_participant: for each coordinator
committed message, count its txid in the participant vote-commit subset
(the commit-ack count is also taken, into an unused variable, exactly as
in the source), fold the equality test into the result flag, and fire the
assert when the count is not one. -/
def checkTxidLoop (pLocal : List ProtocolMessage)
    (pCommit : List ProtocolMessage) :
    List ProtocolMessage → Bool → Except CheckFailure Bool
  | [], result => .ok result
  | cm :: rest, result =>
      let _fnd := countTxid cm.txid pCommit
      let fndLocal := countTxid cm.txid pLocal
      let result1 := result && decide (fndLocal = 1)
      if fndLocal = 1 then checkTxidLoop pLocal pCommit rest result1
      else .error (.perTxid cm.txid)

/-- check_participant from src/checker.rs.  The participant label feeds
only the success println and is omitted; a HashMap is passed as the list
of its entries' values.  The Bool mirrors the Rust result variable; an
error is a fired (process-terminating) assert!, in source order: the
three count bounds first, then the per-transaction loop. -/
def check_participant (num_commit num_abort : Nat)
    (coord_committed participant_log : List ProtocolMessage) :
    Except CheckFailure Bool :=
  let pCommit := filterType .CoordinatorCommit participant_log
  let pLocal := filterType .ParticipantVoteCommit participant_log
  let pAbort := filterType .CoordinatorAbort participant_log
  let npc := pCommit.length
  let npl := pLocal.length
  let npa := pAbort.length
  let result := decide (npc ≤ num_commit) && decide (num_commit ≤ npl) &&
    decide (npa ≤ num_abort)
  if npc ≤ num_commit then
    if num_commit ≤ npl then
      if npa ≤ num_abort then
        checkTxidLoop pLocal pCommit coord_committed result
      else .error .abortBound
    else .error .localCommitBound
  else .error .commitBound

/-- Sample messages used by concrete witnesses and counterexamples. -/
def sampleCommit : ProtocolMessage :=
  ⟨.CoordinatorCommit, 1, "client_0_tx_1", "coordinator", 1⟩

/-- A participant vote-commit for the same transaction as sampleCommit. -/
def sampleVote : ProtocolMessage :=
  ⟨.ParticipantVoteCommit, 2, "client_0_tx_1", "participant_0", 1⟩

/-- A duplicate participant vote-commit for the same transaction. -/
def sampleVote2 : ProtocolMessage :=
  ⟨.ParticipantVoteCommit, 3, "client_0_tx_1", "participant_0", 1⟩

/-- The messages of the lines that parse, in file order. -/
def lineMsgs (lines : List LogLine) : List ProtocolMessage :=
  lines.filterMap parseLine

/-- The content of the from_file read loop on a file whose lines all
parse: a running maximum of uids and uid-keyed inserts. -/
def replayFold : List ProtocolMessage → Nat → List (Nat × ProtocolMessage) →
    Nat × List (Nat × ProtocolMessage)
  | [], s, l => (s, l)
  | m :: rest, s, l =>
      replayFold rest (if m.uid > s then m.uid else s) (hmInsert m.uid m l)

/-- The last message in a list whose uid is the given key. -/
def findLastUid (k : Nat) : List ProtocolMessage → Option ProtocolMessage
  | [] => none
  | m :: rest =>
      match findLastUid k rest with
      | some r => some r
      | none => if m.uid = k then some m else none

/-- The uids assigned by a number of successive ProtocolMessage::generate
calls in one process whose counter currently holds c (the message payload
does not influence the uid). -/
def genUids : Nat → Nat → List Nat
  | _, 0 => []
  | c, k + 1 => (fetchAdd c).1 :: genUids (fetchAdd c).2 k

/-- The map keys that successive OpLog::append calls on a state would
use, computed exactly as append does. -/
def appendKeys (st : ProcState) :
    List (MessageType × String × String × Nat) → List Nat
  | [] => []
  | (t, tid, sid, op) :: rest =>
      ((st.oplog.seqno + 1) % u32Mod) ::
        appendKeys (OpLog.append st t tid sid op) rest

/-- A single operation used for concrete append witnesses. -/
def oneOp : MessageType × String × String × Nat :=
  (MessageType.CoordinatorCommit, "client_0_tx_1", "participant_0", 1)

/-- A message whose persisted id is the largest u32, as a file line can
legitimately carry. -/
def wrapMsg : ProtocolMessage :=
  ⟨.ClientRequest, u32Mod - 1, "client_0_tx_1", "client_0", 1⟩

/-- Iterated OpLog::append with the given arguments, in order. -/
def appendMany (st : ProcState) :
    List (MessageType × String × String × Nat) → ProcState
  | [] => st
  | (t, tid, sid, op) :: rest => appendMany (OpLog.append st t tid sid op) rest

/-- The message that an append in a fresh process produces when the
counter and the log seqno agree on the value i. -/
def expectedMsg (i : Nat) (o : MessageType × String × String × Nat) :
    ProtocolMessage :=
  ⟨o.1, i, o.2.1, o.2.2.1, o.2.2.2⟩

/-- The map entries of a fresh-process log after its appends, keys
starting at k. -/
def replayedEntries (k : Nat) :
    List (MessageType × String × String × Nat) →
    List (Nat × ProtocolMessage)
  | [] => []
  | o :: rest => (k, expectedMsg k o) :: replayedEntries (k + 1) rest

/-- Process state for the C1 counterexample: one message is generated in
the process (the counter moves from 1 to 2) before the log is created,
then the log receives a single append. -/
def c1State : ProcState :=
  OpLog.append
    (OpLog.new (ProtocolMessage.generate counterInit
      MessageType.ClientRequest "client_0_tx_1" "client_0" 1).2)
    MessageType.CoordinatorCommit "client_0_tx_1" "coordinator" 1

/-- Two append operations used by the C1 witness. -/
def twoOps : List (MessageType × String × String × Nat) :=
  [(MessageType.ParticipantVoteCommit, "client_0_tx_1", "participant_0", 1),
   (MessageType.CoordinatorCommit, "client_0_tx_1", "coordinator", 1)]

/-- First message with duplicate id 5, for the C10 witness. -/
def dupMsgA : ProtocolMessage :=
  ⟨.ClientRequest, 5, "client_0_tx_1", "client_0", 1⟩

/-- Second message with duplicate id 5, for the C10 witness. -/
def dupMsgB : ProtocolMessage :=
  ⟨.ClientRequest, 5, "client_0_tx_2", "client_0", 2⟩

/-- A two-line file whose lines carry the same id. -/
def dupLines : List LogLine :=
  [LogLine.json (encodeMessage dupMsgA), LogLine.json (encodeMessage dupMsgB)]

theorem checkTxidLoop_ok_iff (pl pc coord : List ProtocolMessage)
    (r r2 : Bool) :
    checkTxidLoop pl pc coord r = .ok r2 ↔
      ((∀ cm ∈ coord, countTxid cm.txid pl = 1) ∧ r2 = r) := by
  induction coord generalizing r with
  | nil => simp [checkTxidLoop, eq_comm]
  | cons cm rest ih =>
      simp only [checkTxidLoop]
      by_cases h : countTxid cm.txid pl = 1
      · simp [h, ih]
      · simp [h]

theorem checkTxidLoop_error_perTxid (pl pc coord : List ProtocolMessage)
    (r : Bool) (e : CheckFailure)
    (h : checkTxidLoop pl pc coord r = .error e) :
    ∃ t, e = CheckFailure.perTxid t := by
  induction coord generalizing r with
  | nil => simp [checkTxidLoop] at h
  | cons cm rest ih =>
      simp only [checkTxidLoop] at h
      by_cases hc : countTxid cm.txid pl = 1
      · rw [if_pos hc] at h
        exact ih _ h
      · rw [if_neg hc] at h
        exact ⟨cm.txid, by simpa [eq_comm] using h⟩

theorem checkTxidLoop_congr (pl pc1 pc2 coord : List ProtocolMessage)
    (r : Bool) :
    checkTxidLoop pl pc1 coord r = checkTxidLoop pl pc2 coord r := by
  induction coord generalizing r with
  | nil => rfl
  | cons cm rest ih =>
      simp only [checkTxidLoop]
      by_cases hc : countTxid cm.txid pl = 1
      · rw [if_pos hc, if_pos hc]
        exact ih _
      · rw [if_neg hc, if_neg hc]

theorem check_participant_ok_iff (nc na : Nat)
    (coord plog : List ProtocolMessage) (r : Bool) :
    check_participant nc na coord plog = .ok r ↔
      ((filterType .CoordinatorCommit plog).length ≤ nc ∧
       nc ≤ (filterType .ParticipantVoteCommit plog).length ∧
       (filterType .CoordinatorAbort plog).length ≤ na ∧
       (∀ cm ∈ coord,
         countTxid cm.txid (filterType .ParticipantVoteCommit plog) = 1) ∧
       r = true) := by
  by_cases h1 : (filterType .CoordinatorCommit plog).length ≤ nc
  · by_cases h2 : nc ≤ (filterType .ParticipantVoteCommit plog).length
    · by_cases h3 : (filterType .CoordinatorAbort plog).length ≤ na
      · simp [check_participant, h1, h2, h3, checkTxidLoop_ok_iff, and_comm]
      · simp [check_participant, h1, h2, h3]
    · simp [check_participant, h1, h2]
  · simp [check_participant, h1]

/-- C2: for every transaction the coordinator committed, check_participant
requires exactly one matching ParticipantVoteCommit entry in the
participant log; a count of zero or of two or more makes it impossible to
complete normally (a process-terminating assert fires). -/
theorem check_participant_exactly_one_vote (nc na : Nat)
    (coord plog : List ProtocolMessage) :
    (∀ r : Bool, check_participant nc na coord plog = Except.ok r →
      ∀ cm ∈ coord,
        countTxid cm.txid (filterType .ParticipantVoteCommit plog) = 1) ∧
    ((∃ cm ∈ coord,
        countTxid cm.txid (filterType .ParticipantVoteCommit plog) ≠ 1) →
      ∃ e, check_participant nc na coord plog = Except.error e) := by
  constructor
  · intro r h
    exact ((check_participant_ok_iff nc na coord plog r).1 h).2.2.2.1
  · rintro ⟨cm, hmem, hne⟩
    cases hcp : check_participant nc na coord plog with
    | ok r =>
        exact absurd
          (((check_participant_ok_iff nc na coord plog r).1 hcp).2.2.2.1
            cm hmem) hne
    | error e => exact ⟨e, rfl⟩

/-- Witness for C2 at a concrete passing input: one coordinator commit,
one matching vote, and the theorem yields the vote count one. -/
theorem check_participant_exactly_one_vote_witness :
    countTxid "client_0_tx_1"
      (filterType .ParticipantVoteCommit [sampleVote]) = 1 :=
  (check_participant_exactly_one_vote 1 0 [sampleCommit] [sampleVote]).1
    true rfl sampleCommit (List.mem_singleton.mpr rfl)

/-- C3: check_participant completes normally only if the three count
bounds (Invariants A, B, C) hold; when they hold the three bound asserts
cannot be the failure (any failure is the per-transaction assert), and
when any bound is violated a process-terminating assert other than the
per-transaction one fires. -/
theorem check_participant_bound_asserts (nc na : Nat)
    (coord plog : List ProtocolMessage) :
    (∀ r : Bool, check_participant nc na coord plog = Except.ok r →
       (filterType .CoordinatorCommit plog).length ≤ nc ∧
       nc ≤ (filterType .ParticipantVoteCommit plog).length ∧
       (filterType .CoordinatorAbort plog).length ≤ na) ∧
    (((filterType .CoordinatorCommit plog).length ≤ nc ∧
      nc ≤ (filterType .ParticipantVoteCommit plog).length ∧
      (filterType .CoordinatorAbort plog).length ≤ na) →
      ∀ e : CheckFailure, check_participant nc na coord plog = .error e →
        ∃ t, e = CheckFailure.perTxid t) ∧
    (¬ ((filterType .CoordinatorCommit plog).length ≤ nc ∧
        nc ≤ (filterType .ParticipantVoteCommit plog).length ∧
        (filterType .CoordinatorAbort plog).length ≤ na) →
      ∃ e, check_participant nc na coord plog = Except.error e ∧
        ∀ t, e ≠ CheckFailure.perTxid t) := by
  refine ⟨?_, ?_, ?_⟩
  · intro r h
    have := (check_participant_ok_iff nc na coord plog r).1 h
    exact ⟨this.1, this.2.1, this.2.2.1⟩
  · rintro ⟨h1, h2, h3⟩ e he
    rw [check_participant, if_pos h1, if_pos h2, if_pos h3] at he
    exact checkTxidLoop_error_perTxid _ _ _ _ _ he
  · intro hnot
    by_cases h1 : (filterType .CoordinatorCommit plog).length ≤ nc
    · by_cases h2 : nc ≤ (filterType .ParticipantVoteCommit plog).length
      · by_cases h3 : (filterType .CoordinatorAbort plog).length ≤ na
        · exact absurd ⟨h1, h2, h3⟩ hnot
        · exact ⟨.abortBound,
            by rw [check_participant, if_pos h1, if_pos h2, if_neg h3],
            by intro t h; cases h⟩
      · exact ⟨.localCommitBound,
          by rw [check_participant, if_pos h1, if_neg h2],
          by intro t h; cases h⟩
    · exact ⟨.commitBound,
        by rw [check_participant, if_neg h1],
        by intro t h; cases h⟩

/-- Witness for C3 at a concrete passing input: the theorem yields the
three count bounds there. -/
theorem check_participant_bound_asserts_witness :
    (filterType .CoordinatorCommit [sampleVote]).length ≤ 1 ∧
    1 ≤ (filterType .ParticipantVoteCommit [sampleVote]).length ∧
    (filterType .CoordinatorAbort [sampleVote]).length ≤ 0 :=
  (check_participant_bound_asserts 1 0 [sampleCommit] [sampleVote]).1
    true rfl

/-- C4 counterexample: check_participant completes normally on a
participant log that is missing the global-commit acknowledgment, so on
success the recorded CoordinatorCommit count (here 0) need not equal the
coordinator's num_commit (here 1); the success line prints the two counts
regardless. -/
theorem check_participant_commit_count_mismatch_cex :
    check_participant 1 0 [sampleCommit] [sampleVote] = Except.ok true ∧
    (filterType .CoordinatorCommit [sampleVote]).length = 0 ∧
    (filterType .CoordinatorCommit [sampleVote]).length ≠ 1 :=
  ⟨rfl, rfl, by decide⟩

/-- C4 amended: whenever check_participant completes normally, the
participant's recorded CoordinatorCommit count is at most (not
necessarily equal to) num_commit, and its recorded CoordinatorAbort
count is at most num_abort. -/
theorem check_participant_success_bounds (nc na : Nat)
    (coord plog : List ProtocolMessage) (r : Bool)
    (h : check_participant nc na coord plog = Except.ok r) :
    (filterType .CoordinatorCommit plog).length ≤ nc ∧
    (filterType .CoordinatorAbort plog).length ≤ na := by
  have hc := (check_participant_ok_iff nc na coord plog r).1 h
  exact ⟨hc.1, hc.2.2.1⟩

/-- Witness for the amended C4 at a concrete passing input. -/
theorem check_participant_success_bounds_witness :
    (filterType .CoordinatorCommit [sampleVote]).length ≤ 1 ∧
    (filterType .CoordinatorAbort [sampleVote]).length ≤ 0 :=
  check_participant_success_bounds 1 0 [sampleCommit] [sampleVote] true rfl

/-- C9: the per-transaction commit-acknowledgment count is computed into
an unused variable and never tested, so adding a CoordinatorCommit entry
to the participant log (for any transaction, in particular a coordinator
committed one) leaves the entire outcome of check_participant unchanged,
as long as the total CoordinatorCommit count stays within the Invariant A
bound. -/
theorem check_participant_ignores_commit_acks (nc na : Nat)
    (coord plog : List ProtocolMessage) (m : ProtocolMessage)
    (hm : m.mtype = MessageType.CoordinatorCommit)
    (hbound : (filterType .CoordinatorCommit (m :: plog)).length ≤ nc) :
    check_participant nc na coord (m :: plog) =
      check_participant nc na coord plog := by
  have hv : filterType .ParticipantVoteCommit (m :: plog) =
      filterType .ParticipantVoteCommit plog := by
    simp [filterType, List.filter_cons, hm]
  have ha : filterType .CoordinatorAbort (m :: plog) =
      filterType .CoordinatorAbort plog := by
    simp [filterType, List.filter_cons, hm]
  have hc : filterType .CoordinatorCommit (m :: plog) =
      m :: filterType .CoordinatorCommit plog := by
    simp [filterType, List.filter_cons, hm]
  rw [hc] at hbound
  simp only [List.length_cons] at hbound
  have h1 : (filterType .CoordinatorCommit plog).length ≤ nc :=
    Nat.le_of_succ_le hbound
  rw [check_participant, check_participant, hv, ha, hc]
  simp only [List.length_cons]
  rw [if_pos hbound, if_pos h1]
  by_cases h2 : nc ≤ (filterType .ParticipantVoteCommit plog).length
  · rw [if_pos h2, if_pos h2]
    by_cases h3 : (filterType .CoordinatorAbort plog).length ≤ na
    · rw [if_pos h3, if_pos h3]
      rw [decide_eq_true hbound, decide_eq_true h1]
      exact checkTxidLoop_congr _ _ _ _ _
    · rw [if_neg h3, if_neg h3]
  · rw [if_neg h2, if_neg h2]

/-- Witness for C9 at a concrete input: adding the commit acknowledgment
for the committed transaction does not change the check outcome. -/
theorem check_participant_ignores_commit_acks_witness :
    check_participant 1 0 [sampleCommit] [sampleCommit, sampleVote] =
      check_participant 1 0 [sampleCommit] [sampleVote] :=
  check_participant_ignores_commit_acks 1 0 [sampleCommit] [sampleVote]
    sampleCommit rfl (by decide)

theorem fromFileLoop_ok (lines : List LogLine)
    (h : ∀ ln ∈ lines, (parseLine ln).isSome) (s : Nat)
    (l : List (Nat × ProtocolMessage)) :
    fromFileLoop lines s l = .ok (replayFold (lineMsgs lines) s l) := by
  induction lines generalizing s l with
  | nil => rfl
  | cons ln rest ih =>
      obtain ⟨pm, hpm⟩ := Option.isSome_iff_exists.mp
        (h ln (List.mem_cons_self ln rest))
      have hrest : ∀ ln2 ∈ rest, (parseLine ln2).isSome := fun ln2 h2 =>
        h ln2 (List.mem_cons_of_mem ln h2)
      simp [fromFileLoop, lineMsgs, List.filterMap_cons, hpm, replayFold,
        ih hrest, lineMsgs]

theorem fromFileLoop_error_of_bad (lines : List LogLine)
    (h : ∃ ln ∈ lines, parseLine ln = none) (s : Nat)
    (l : List (Nat × ProtocolMessage)) :
    fromFileLoop lines s l = .error .parseFailed := by
  induction lines generalizing s l with
  | nil => simp at h
  | cons ln rest ih =>
      obtain ⟨ln2, hmem, hbad⟩ := h
      cases hp : parseLine ln with
      | none => simp [fromFileLoop, hp]
      | some pm =>
          have h2 : ln2 ∈ rest := by
            rcases List.mem_cons.mp hmem with heq | h2
            · rw [heq] at hbad
              rw [hbad] at hp
              cases hp
            · exact h2
          simp [fromFileLoop, hp, ih ⟨ln2, h2, hbad⟩]

theorem hmGet_hmInsert (k k0 : Nat) (v : ProtocolMessage)
    (l : List (Nat × ProtocolMessage)) :
    hmGet k (hmInsert k0 v l) = if k0 = k then some v else hmGet k l := by
  induction l with
  | nil => simp [hmInsert, hmGet]
  | cons kv rest ih =>
      obtain ⟨k1, v1⟩ := kv
      by_cases h1 : k1 = k0
      · subst h1
        by_cases h2 : k1 = k <;> simp [hmInsert, hmGet, h2]
      · by_cases h2 : k1 = k
        · subst h2
          have h4 : ¬ k0 = k1 := fun hh => h1 hh.symm
          simp [hmInsert, hmGet, h1, h4]
        · simp [hmInsert, hmGet, h1, h2, ih]

theorem hmGet_replayFold (k : Nat) (ms : List ProtocolMessage) (s : Nat)
    (l : List (Nat × ProtocolMessage)) :
    hmGet k (replayFold ms s l).2 =
      match findLastUid k ms with
      | some r => some r
      | none => hmGet k l := by
  induction ms generalizing s l with
  | nil => rfl
  | cons m rest ih =>
      simp only [replayFold, findLastUid]
      cases hfind : findLastUid k rest with
      | some r => simp [ih, hfind]
      | none =>
          simp only [ih, hfind, hmGet_hmInsert]
          by_cases hm : m.uid = k <;> simp [hm]

theorem replayFold_fst (ms : List ProtocolMessage) (s : Nat)
    (l : List (Nat × ProtocolMessage)) :
    (replayFold ms s l).1 = ms.foldl (fun a m => max a m.uid) s := by
  induction ms generalizing s l with
  | nil => rfl
  | cons m rest ih =>
      simp only [replayFold, List.foldl_cons, ih]
      congr 1
      rcases le_or_lt m.uid s with h | h
      · rw [if_neg (by omega), Nat.max_eq_left h]
      · rw [if_pos h, Nat.max_eq_right (le_of_lt h)]

theorem le_foldl_max_uid (ms : List ProtocolMessage) (s : Nat) :
    s ≤ ms.foldl (fun a m => max a m.uid) s := by
  induction ms generalizing s with
  | nil => exact le_refl s
  | cons m rest ih => exact le_trans (Nat.le_max_left s m.uid) (ih _)

theorem uid_le_foldl_max (ms : List ProtocolMessage) (s : Nat) :
    ∀ m ∈ ms, m.uid ≤ ms.foldl (fun a m => max a m.uid) s := by
  induction ms generalizing s with
  | nil => intro m hm; cases hm
  | cons m0 rest ih =>
      intro m hm
      rcases List.mem_cons.mp hm with heq | hmem
      · subst heq
        simp only [List.foldl_cons]
        exact le_trans (Nat.le_max_right s m.uid) (le_foldl_max_uid rest _)
      · simp only [List.foldl_cons]
        exact ih _ m hmem

theorem findLastUid_append_single (k : Nat) (xs : List ProtocolMessage)
    (m : ProtocolMessage) :
    findLastUid k (xs ++ [m]) =
      if m.uid = k then some m else findLastUid k xs := by
  induction xs with
  | nil =>
      by_cases hm : m.uid = k <;> simp [findLastUid, hm]
  | cons x rest ih =>
      simp only [List.cons_append, findLastUid]
      by_cases hm : m.uid = k
      · simp [ih, hm]
      · simp [ih, hm]

theorem from_file_ok (lines : List LogLine)
    (h : ∀ ln ∈ lines, (parseLine ln).isSome) :
    OpLog.from_file (some lines) =
      Except.ok ⟨(replayFold (lineMsgs lines) 0 []).1,
                 (replayFold (lineMsgs lines) 0 []).2⟩ := by
  simp [OpLog.from_file, fromFileLoop_ok lines h 0 []]

/-- C5: from_file fails when the file cannot be opened and when any line
of the file fails to parse; the whole reconstruction aborts with a
propagated load error rather than skipping the bad line or defaulting. -/
theorem from_file_error_propagation (lines : List LogLine) :
    OpLog.from_file none = Except.error LoadError.openFailed ∧
    ((∃ ln ∈ lines, parseLine ln = none) →
      OpLog.from_file (some lines) = Except.error LoadError.parseFailed) := by
  refine ⟨rfl, fun h => ?_⟩
  simp [OpLog.from_file, fromFileLoop_error_of_bad lines h 0 []]

/-- Witness for C5 at a concrete input: a one-line file whose line is
malformed makes from_file return the parse error. -/
theorem from_file_error_propagation_witness :
    OpLog.from_file (some [LogLine.malformed]) =
      Except.error LoadError.parseFailed :=
  (from_file_error_propagation [LogLine.malformed]).2
    ⟨LogLine.malformed, List.mem_singleton.mpr rfl, rfl⟩

/-- C10: on a file whose lines all parse, from_file succeeds even when
several lines carry the same uid; the map then holds, at each key, only
the message of the last line with that uid (earlier ones are silently
overwritten), and the recovered seqno is still the running maximum of the
uids over all lines. -/
theorem from_file_duplicate_ids_last_wins (lines : List LogLine)
    (h : ∀ ln ∈ lines, (parseLine ln).isSome) :
    OpLog.from_file (some lines) =
      Except.ok ⟨(lineMsgs lines).foldl (fun a m => max a m.uid) 0,
        (replayFold (lineMsgs lines) 0 []).2⟩ ∧
    (∀ k, hmGet k (replayFold (lineMsgs lines) 0 []).2 =
      findLastUid k (lineMsgs lines)) ∧
    (∀ m ∈ lineMsgs lines,
      m.uid ≤ (lineMsgs lines).foldl (fun a m => max a m.uid) 0) := by
  refine ⟨?_, ?_, uid_le_foldl_max _ 0⟩
  · rw [from_file_ok lines h, replayFold_fst]
  · intro k
    rw [hmGet_replayFold]
    cases hf : findLastUid k (lineMsgs lines) <;> simp [hmGet]

theorem decodeMessageType_variantName (t : MessageType) :
    decodeMessageType (Json.str t.variantName) = some t := by
  cases t <;> rfl

theorem decodeU32_natCast (n : Nat) (h : n < u32Mod) :
    decodeU32 (Json.num (n : Int)) = some n := by
  simp only [decodeU32]
  rw [if_pos ⟨Int.natCast_nonneg n, by exact_mod_cast h⟩]
  simp

theorem from_string_obj (jm ju jt js jo : Json) :
    ProtocolMessage.from_string (Json.obj
      [("mtype", jm), ("uid", ju), ("txid", jt), ("senderid", js),
       ("opid", jo)]) =
      (decodeMessageType jm).bind fun t2 =>
      (decodeU32 ju).bind fun u2 =>
      (decodeStr jt).bind fun tid2 =>
      (decodeStr js).bind fun sid2 =>
      (decodeU32 jo).bind fun oid2 =>
      some ⟨t2, u2, tid2, sid2, oid2⟩ := by
  rfl

theorem from_string_encodeMessage (m : ProtocolMessage)
    (hu : m.uid < u32Mod) (ho : m.opid < u32Mod) :
    ProtocolMessage.from_string (encodeMessage m) = some m := by
  obtain ⟨t, u, tid, sid, oid⟩ := m
  simp only at hu ho
  rw [show encodeMessage ⟨t, u, tid, sid, oid⟩ = Json.obj
    [("mtype", Json.str t.variantName), ("uid", Json.num (u : Int)),
     ("txid", Json.str tid), ("senderid", Json.str sid),
     ("opid", Json.num (oid : Int))] from rfl]
  rw [from_string_obj]
  rw [decodeMessageType_variantName t]
  rw [Option.some_bind]
  rw [decodeU32_natCast u hu, Option.some_bind]
  rw [show decodeStr (Json.str tid) = some tid from rfl, Option.some_bind]
  rw [show decodeStr (Json.str sid) = some sid from rfl, Option.some_bind]
  rw [decodeU32_natCast oid ho, Option.some_bind]

/-- C8: serializing a ProtocolMessage as one line and parsing that line
back yields the same message — in particular the same kind,
transaction_id, sender_id and operation_id — and consequently, after
append returns, reconstructing the log from its file finds, at the
appended record's persisted id, a record with exactly the appended
fields.  The u32 bounds are the Rust field types. -/
theorem serialize_parse_roundtrip_durable :
    (∀ m : ProtocolMessage, m.uid < u32Mod → m.opid < u32Mod →
      ProtocolMessage.from_string (encodeMessage m) = some m) ∧
    (∀ (st : ProcState) (t : MessageType) (tid sid : String) (op : Nat),
      st.counter < u32Mod → op < u32Mod →
      (∀ ln ∈ st.file, (parseLine ln).isSome) →
      ∃ lg : OpLog,
        OpLog.from_file (some (OpLog.append st t tid sid op).file) =
          Except.ok lg ∧
        hmGet st.counter lg.log = some ⟨t, st.counter, tid, sid, op⟩) := by
  refine ⟨from_string_encodeMessage, ?_⟩
  intro st t tid sid op hc hop hfile
  have hpm : (ProtocolMessage.generate st.counter t tid sid op).1 =
      (⟨t, st.counter, tid, sid, op⟩ : ProtocolMessage) := rfl
  have happ : (OpLog.append st t tid sid op).file =
      st.file ++ [LogLine.json
        (encodeMessage ⟨t, st.counter, tid, sid, op⟩)] := by
    simp [OpLog.append, hpm]
  have hparse : parseLine (LogLine.json
      (encodeMessage ⟨t, st.counter, tid, sid, op⟩)) =
      some ⟨t, st.counter, tid, sid, op⟩ :=
    from_string_encodeMessage ⟨t, st.counter, tid, sid, op⟩ hc hop
  have hall : ∀ ln ∈ st.file ++ [LogLine.json
      (encodeMessage ⟨t, st.counter, tid, sid, op⟩)],
      (parseLine ln).isSome := by
    intro ln hln
    rcases List.mem_append.mp hln with h1 | h2
    · exact hfile ln h1
    · rw [List.mem_singleton.mp h2, hparse]
      rfl
  have hmsgs : lineMsgs (st.file ++ [LogLine.json
      (encodeMessage ⟨t, st.counter, tid, sid, op⟩)]) =
      lineMsgs st.file ++ [⟨t, st.counter, tid, sid, op⟩] := by
    simp [lineMsgs, List.filterMap_append, hparse]
  rw [happ]
  refine ⟨_, from_file_ok _ hall, ?_⟩
  show hmGet st.counter (replayFold (lineMsgs (st.file ++ [LogLine.json
    (encodeMessage ⟨t, st.counter, tid, sid, op⟩)])) 0 []).2 =
    some ⟨t, st.counter, tid, sid, op⟩
  rw [hmsgs, hmGet_replayFold, findLastUid_append_single, if_pos rfl]

/-- Witness for C8 at a concrete message: serialize then parse returns it
unchanged. -/
theorem serialize_parse_roundtrip_durable_witness :
    ProtocolMessage.from_string (encodeMessage sampleCommit) =
      some sampleCommit :=
  serialize_parse_roundtrip_durable.1 sampleCommit (by decide) (by decide)

theorem u32Mod_pos : 0 < u32Mod := by decide

theorem genUids_length (c k : Nat) : (genUids c k).length = k := by
  induction k generalizing c with
  | zero => rfl
  | succ k ih => simp [genUids, ih]

theorem genUids_getElem? (k : Nat) : ∀ c i : Nat, c < u32Mod → i < k →
    (genUids c k)[i]? = some ((c + i) % u32Mod) := by
  induction k with
  | zero => intro c i hc hi; omega
  | succ k ih =>
      intro c i hc hi
      cases i with
      | zero => simp [genUids, fetchAdd, Nat.mod_eq_of_lt hc]
      | succ i =>
          rw [show genUids c (k + 1) =
            (fetchAdd c).1 :: genUids (fetchAdd c).2 k from rfl,
            List.getElem?_cons_succ,
            show (fetchAdd c).2 = (c + 1) % u32Mod from rfl]
          rw [ih ((c + 1) % u32Mod) i (Nat.mod_lt _ u32Mod_pos) (by omega)]
          rw [Nat.mod_add_mod]
          congr 2
          omega

theorem genUids_eq_range' (k : Nat) : ∀ c, c + k ≤ u32Mod →
    genUids c k = List.range' c k := by
  induction k with
  | zero => intro c h; rfl
  | succ k ih =>
      intro c h
      show (fetchAdd c).1 :: genUids (fetchAdd c).2 k = List.range' c (k + 1)
      rw [List.range'_succ]
      congr 1
      cases k with
      | zero => rfl
      | succ k2 =>
          have h2 : (c + 1) % u32Mod = c + 1 := Nat.mod_eq_of_lt (by omega)
          rw [show (fetchAdd c).2 = (c + 1) % u32Mod from rfl, h2]
          exact ih (c + 1) (by omega)

/-- C6 counterexample: AtomicU32::fetch_add wraps at 2^32, so in a
process that performs 2^32 + 1 generate calls starting from the fresh
counter, the first and the last call receive the same uid; the assigned
ids are not pairwise distinct for every call sequence. -/
theorem generate_uid_collision_cex :
    ¬ (genUids counterInit (u32Mod + 1)).Nodup := by
  intro hnd
  have h0 : (genUids counterInit (u32Mod + 1))[0]? =
      some ((1 + 0) % u32Mod) :=
    genUids_getElem? (u32Mod + 1) 1 0 (by decide) (by omega)
  have h1 : (genUids counterInit (u32Mod + 1))[u32Mod]? =
      some ((1 + u32Mod) % u32Mod) :=
    genUids_getElem? (u32Mod + 1) 1 u32Mod (by decide) (by omega)
  have hv : (1 + 0) % u32Mod = (1 + u32Mod) % u32Mod := by
    rw [Nat.add_comm 1 u32Mod, Nat.add_mod_left]
  have hlen : (0 : Nat) < (genUids counterInit (u32Mod + 1)).length := by
    rw [genUids_length]
    omega
  have : (0 : Nat) = u32Mod :=
    List.getElem?_inj hlen hnd (by rw [h0, h1, hv])
  exact absurd this.symm (Nat.pos_iff_ne_zero.mp u32Mod_pos)

/-- C6 amended: as long as fewer than 2^32 messages are generated in one
process (the u32 counter has not wrapped), the uids assigned by the
generate calls starting from the fresh counter are exactly 1, 2, ..., K:
pairwise distinct and strictly increasing. -/
theorem generate_uids_distinct_increasing (k : Nat) (hk : k < u32Mod) :
    genUids counterInit k = List.range' 1 k ∧
    (genUids counterInit k).Nodup ∧
    List.Pairwise (fun a b => a < b) (genUids counterInit k) := by
  have he : genUids counterInit k = List.range' 1 k :=
    genUids_eq_range' k 1 (by omega)
  refine ⟨he, ?_, ?_⟩
  · rw [he]
    exact List.nodup_range' 1 k
  · rw [he]
    exact List.pairwise_lt_range' 1 k

/-- Witness for the amended C6 at three generate calls: the uids come out
as 1, 2, 3. -/
theorem generate_uids_distinct_increasing_witness :
    genUids counterInit 3 = List.range' 1 3 ∧
    (genUids counterInit 3).Nodup ∧
    List.Pairwise (fun a b => a < b) (genUids counterInit 3) :=
  generate_uids_distinct_increasing 3 (by decide)

theorem hmInsert_fresh (k : Nat) (v : ProtocolMessage)
    (l : List (Nat × ProtocolMessage)) (h : ∀ kv ∈ l, kv.1 ≠ k) :
    hmInsert k v l = l ++ [(k, v)] := by
  induction l with
  | nil => rfl
  | cons kv rest ih =>
      obtain ⟨k0, v0⟩ := kv
      have hne : k0 ≠ k := h (k0, v0) (List.mem_cons_self _ _)
      simp only [hmInsert, if_neg hne, List.cons_append, List.cons.injEq,
        true_and]
      exact ih fun kv2 h2 => h kv2 (List.mem_cons_of_mem _ h2)

theorem hmGet_isSome_mem (k : Nat) (l : List (Nat × ProtocolMessage))
    (v : ProtocolMessage) (h : hmGet k l = some v) : (k, v) ∈ l := by
  induction l with
  | nil => cases h
  | cons kv rest ih =>
      obtain ⟨k0, v0⟩ := kv
      by_cases h0 : k0 = k
      · subst h0
        rw [hmGet, if_pos rfl] at h
        cases h
        exact List.mem_cons_self _ _
      · rw [hmGet, if_neg h0] at h
        exact List.mem_cons_of_mem _ (ih h)

theorem hmInsert_mem (k : Nat) (v : ProtocolMessage)
    (l : List (Nat × ProtocolMessage)) :
    ∀ kv ∈ hmInsert k v l, kv = (k, v) ∨ kv ∈ l := by
  induction l with
  | nil =>
      intro kv hkv
      rcases List.mem_singleton.mp hkv with h
      exact Or.inl h
  | cons kv0 rest ih =>
      obtain ⟨k0, v0⟩ := kv0
      intro kv hkv
      by_cases h0 : k0 = k
      · rw [hmInsert, if_pos h0] at hkv
        rcases List.mem_cons.mp hkv with h | h
        · exact Or.inl h
        · exact Or.inr (List.mem_cons_of_mem _ h)
      · rw [hmInsert, if_neg h0] at hkv
        rcases List.mem_cons.mp hkv with h | h
        · exact Or.inr (h ▸ List.mem_cons_self _ _)
        · rcases ih kv h with h2 | h2
          · exact Or.inl h2
          · exact Or.inr (List.mem_cons_of_mem _ h2)

theorem replayFold_key_le (ms : List ProtocolMessage) :
    ∀ (s : Nat) (l : List (Nat × ProtocolMessage)),
    (∀ kv ∈ l, kv.1 ≤ s) →
    ∀ kv ∈ (replayFold ms s l).2, kv.1 ≤ (replayFold ms s l).1 := by
  induction ms with
  | nil => intro s l h kv hkv; exact h kv hkv
  | cons m rest ih =>
      intro s l h kv hkv
      simp only [replayFold] at hkv ⊢
      refine ih _ _ ?_ kv hkv
      intro kv2 hkv2
      rcases hmInsert_mem m.uid m l kv2 hkv2 with h2 | h2
      · rw [h2]
        by_cases hgt : m.uid > s
        · rw [if_pos hgt]
        · rw [if_neg hgt]
          omega
      · have := h kv2 h2
        by_cases hgt : m.uid > s
        · rw [if_pos hgt]; omega
        · rw [if_neg hgt]; omega

theorem replayFold_uid_keyed (ms : List ProtocolMessage) :
    ∀ (s : Nat) (l : List (Nat × ProtocolMessage)),
    (∀ kv ∈ l, kv.1 = kv.2.uid) →
    ∀ kv ∈ (replayFold ms s l).2, kv.1 = kv.2.uid := by
  induction ms with
  | nil => intro s l h kv hkv; exact h kv hkv
  | cons m rest ih =>
      intro s l h kv hkv
      simp only [replayFold] at hkv
      refine ih _ _ ?_ kv hkv
      intro kv2 hkv2
      rcases hmInsert_mem m.uid m l kv2 hkv2 with h2 | h2
      · rw [h2]
      · exact h kv2 h2

theorem findLastUid_isSome_of_mem (m : ProtocolMessage)
    (ms : List ProtocolMessage) (h : m ∈ ms) :
    (findLastUid m.uid ms).isSome := by
  induction ms with
  | nil => cases h
  | cons m0 rest ih =>
      rcases List.mem_cons.mp h with heq | hmem
      · subst heq
        simp only [findLastUid]
        cases hf : findLastUid m.uid rest with
        | some r => rfl
        | none => simp
      · simp only [findLastUid]
        cases hf : findLastUid m.uid rest with
        | some r => rfl
        | none => rw [hf] at ih; cases ih hmem

theorem appendKeys_range' (ops : List (MessageType × String × String × Nat)) :
    ∀ st : ProcState, st.oplog.seqno + ops.length < u32Mod →
    appendKeys st ops = List.range' (st.oplog.seqno + 1) ops.length := by
  induction ops with
  | nil => intro st h; rfl
  | cons o rest ih =>
      obtain ⟨t, tid, sid, op⟩ := o
      intro st h
      simp only [appendKeys, List.length_cons]
      simp only [List.length_cons] at h
      have h1 : (st.oplog.seqno + 1) % u32Mod = st.oplog.seqno + 1 :=
        Nat.mod_eq_of_lt (by omega)
      have h2 : (OpLog.append st t tid sid op).oplog.seqno =
          st.oplog.seqno + 1 := h1
      rw [List.range'_succ, h1]
      congr 1
      rw [ih (OpLog.append st t tid sid op) (by rw [h2]; omega), h2]

/-- C7 counterexample: replaying a file whose maximum id is u32::MAX
primes seqno to u32::MAX, and the next append key wraps to 0, which is
not strictly greater than the replayed key. -/
theorem from_file_append_key_wrap_cex :
    OpLog.from_file (some [LogLine.json (encodeMessage wrapMsg)]) =
      Except.ok ⟨u32Mod - 1, [(u32Mod - 1, wrapMsg)]⟩ ∧
    appendKeys ⟨counterInit, ⟨u32Mod - 1, [(u32Mod - 1, wrapMsg)]⟩,
      [LogLine.json (encodeMessage wrapMsg)]⟩ [oneOp] = [0] ∧
    ¬ (u32Mod - 1 < 0) :=
  ⟨rfl, rfl, Nat.not_lt_zero _⟩

/-- C7 amended: for a file whose lines all parse, from_file keys every
replayed record by its own persisted id (never regenerating it) and
primes seqno to the maximum id observed (0 for an empty file); provided
no u32 wrap occurs (seqno plus the number of subsequent appends stays
below 2^32), the keys of the subsequent appends continue the sequence
seqno+1, seqno+2, ..., each strictly greater than every replayed key, so
they collide with none of them. -/
theorem from_file_preserves_ids_primes_seqno (lines : List LogLine)
    (c : Nat) (ops : List (MessageType × String × String × Nat))
    (lg : OpLog)
    (h : ∀ ln ∈ lines, (parseLine ln).isSome)
    (hlg : OpLog.from_file (some lines) = Except.ok lg)
    (hof : lg.seqno + ops.length < u32Mod) :
    (∀ kv ∈ lg.log, kv.1 = kv.2.uid) ∧
    (∀ m ∈ lineMsgs lines, (hmGet m.uid lg.log).isSome) ∧
    lg.seqno = (lineMsgs lines).foldl (fun a m => max a m.uid) 0 ∧
    appendKeys ⟨c, lg, lines⟩ ops = List.range' (lg.seqno + 1) ops.length ∧
    (∀ kk ∈ appendKeys ⟨c, lg, lines⟩ ops, ∀ k : Nat,
      (hmGet k lg.log).isSome → k < kk) := by
  have hok := from_file_ok lines h
  rw [hlg] at hok
  have hlg2 : lg = ⟨(replayFold (lineMsgs lines) 0 []).1,
      (replayFold (lineMsgs lines) 0 []).2⟩ := by
    injection hok
  subst hlg2
  have hkey : ∀ kv ∈ (replayFold (lineMsgs lines) 0 []).2,
      kv.1 ≤ (replayFold (lineMsgs lines) 0 []).1 :=
    replayFold_key_le (lineMsgs lines) 0 []
      (by intro kv hkv; cases hkv)
  refine ⟨?_, ?_, ?_, ?_, ?_⟩
  · exact replayFold_uid_keyed (lineMsgs lines) 0 []
      (by intro kv hkv; cases hkv)
  · intro m hm
    rw [hmGet_replayFold]
    have hs := findLastUid_isSome_of_mem m (lineMsgs lines) hm
    cases hf : findLastUid m.uid (lineMsgs lines) with
    | some r => rfl
    | none => rw [hf] at hs; cases hs
  · exact replayFold_fst (lineMsgs lines) 0 []
  · exact appendKeys_range' ops _ hof
  · intro kk hkk k hks
    rw [appendKeys_range' ops _ hof] at hkk
    have hkk2 := List.mem_range'_1.mp hkk
    obtain ⟨v, hv⟩ := Option.isSome_iff_exists.mp hks
    have hmem := hmGet_isSome_mem k _ v hv
    have := hkey (k, v) hmem
    simp only at this hkk2
    omega

/-- Witness for the amended C7 at a concrete one-line file (replayed id
2) and one subsequent append: the append key is 3. -/
theorem from_file_preserves_ids_primes_seqno_witness :
    appendKeys ⟨counterInit, ⟨2, [(2, sampleVote)]⟩,
      [LogLine.json (encodeMessage sampleVote)]⟩ [oneOp] =
      List.range' 3 1 :=
  (from_file_preserves_ids_primes_seqno
    [LogLine.json (encodeMessage sampleVote)] counterInit [oneOp]
    ⟨2, [(2, sampleVote)]⟩ (by decide) rfl (by decide)).2.2.2.1

theorem expectedMsg_uid (i : Nat) (o : MessageType × String × String × Nat) :
    (expectedMsg i o).uid = i := rfl

theorem replayedEntries_keys
    (ops : List (MessageType × String × String × Nat)) :
    ∀ k, (replayedEntries k ops).map Prod.fst = List.range' k ops.length := by
  induction ops with
  | nil => intro k; rfl
  | cons o rest ih =>
      intro k
      simp only [replayedEntries, List.map_cons, List.length_cons,
        List.range'_succ]
      rw [ih (k + 1)]

theorem replayedEntries_mem
    (ops : List (MessageType × String × String × Nat)) :
    ∀ k kv, kv ∈ replayedEntries k ops →
      kv.1 = kv.2.uid ∧ k ≤ kv.1 ∧ kv.1 < k + ops.length ∧
      ∃ o ∈ ops, kv.2 = expectedMsg kv.1 o := by
  induction ops with
  | nil => intro k kv hkv; cases hkv
  | cons o rest ih =>
      intro k kv hkv
      rcases List.mem_cons.mp hkv with heq | hmem
      · subst heq
        exact ⟨rfl, le_refl _, by simp only [List.length_cons]; omega,
          o, List.mem_cons_self _ _, rfl⟩
      · obtain ⟨h1, h2, h3, o2, ho2, h4⟩ := ih (k + 1) kv hmem
        exact ⟨h1, by omega, by simp only [List.length_cons]; omega,
          o2, List.mem_cons_of_mem _ ho2, h4⟩

theorem lineMsgs_encode (ms : List ProtocolMessage)
    (h : ∀ m ∈ ms, m.uid < u32Mod ∧ m.opid < u32Mod) :
    lineMsgs (ms.map fun m => LogLine.json (encodeMessage m)) = ms := by
  induction ms with
  | nil => rfl
  | cons m rest ih =>
      have hm := h m (List.mem_cons_self _ _)
      have hp : parseLine (LogLine.json (encodeMessage m)) = some m :=
        from_string_encodeMessage m hm.1 hm.2
      have ih2 := ih fun m2 h2 => h m2 (List.mem_cons_of_mem _ h2)
      simp only [lineMsgs, List.map_cons, List.filterMap_cons, hp] at ih2 ⊢
      rw [ih2]

theorem replayFold_entries_snd
    (ops : List (MessageType × String × String × Nat)) :
    ∀ (k s : Nat) (l : List (Nat × ProtocolMessage)),
    (∀ kv ∈ l, kv.1 < k) →
    (replayFold ((replayedEntries k ops).map Prod.snd) s l).2 =
      l ++ replayedEntries k ops := by
  induction ops with
  | nil => intro k s l h; simp [replayedEntries, replayFold]
  | cons o rest ih =>
      intro k s l h
      simp only [replayedEntries, List.map_cons, replayFold, expectedMsg_uid]
      rw [hmInsert_fresh k _ l (fun kv hkv => Nat.ne_of_lt (h kv hkv))]
      rw [ih (k + 1) _ (l ++ [(k, expectedMsg k o)]) ?hb]
      · simp
      case hb =>
        intro kv hkv
        rcases List.mem_append.mp hkv with h2 | h2
        · exact Nat.lt_succ_of_lt (h kv h2)
        · rw [List.mem_singleton.mp h2]
          exact Nat.lt_succ_self k

theorem replayFold_entries_fst
    (ops : List (MessageType × String × String × Nat)) :
    ∀ (s : Nat) (l : List (Nat × ProtocolMessage)),
    (replayFold ((replayedEntries (s + 1) ops).map Prod.snd) s l).1 =
      s + ops.length := by
  induction ops with
  | nil => intro s l; simp [replayedEntries, replayFold]
  | cons o rest ih =>
      intro s l
      simp only [replayedEntries, List.map_cons, replayFold, expectedMsg_uid,
        List.length_cons]
      rw [if_pos (Nat.lt_succ_self s)]
      rw [ih (s + 1) _]
      omega

theorem appendMany_fresh (ops : List (MessageType × String × String × Nat)) :
    ∀ (st : ProcState) (k : Nat),
    st.counter = k + 1 → st.oplog.seqno = k → k + ops.length < u32Mod →
    (∀ kv ∈ st.oplog.log, kv.1 ≤ k) →
    (appendMany st ops).oplog.seqno = k + ops.length ∧
    (appendMany st ops).oplog.log =
      st.oplog.log ++ replayedEntries (k + 1) ops ∧
    (appendMany st ops).file = st.file ++
      (replayedEntries (k + 1) ops).map
        (fun kv => LogLine.json (encodeMessage kv.2)) := by
  induction ops with
  | nil =>
      intro st k hc hs hb hl
      simp [appendMany, replayedEntries, hs]
  | cons o rest ih =>
      obtain ⟨t, tid, sid, op⟩ := o
      intro st k hc hs hb hl
      simp only [List.length_cons] at hb
      have hkey : (st.oplog.seqno + 1) % u32Mod = k + 1 := by
        rw [hs]
        exact Nat.mod_eq_of_lt (by omega)
      have hs1 : (OpLog.append st t tid sid op).oplog.seqno = k + 1 := hkey
      have hpm : (ProtocolMessage.generate st.counter t tid sid op).1 =
          expectedMsg (k + 1) (t, tid, sid, op) := by
        rw [show (ProtocolMessage.generate st.counter t tid sid op).1 =
          (⟨t, st.counter, tid, sid, op⟩ : ProtocolMessage) from rfl, hc]
        rfl
      have hlog1 : (OpLog.append st t tid sid op).oplog.log =
          st.oplog.log ++
            [(k + 1, expectedMsg (k + 1) (t, tid, sid, op))] := by
        show hmInsert ((st.oplog.seqno + 1) % u32Mod)
          (ProtocolMessage.generate st.counter t tid sid op).1
          st.oplog.log = _
        rw [hkey, hpm]
        exact hmInsert_fresh _ _ _ fun kv hkv =>
          Nat.ne_of_lt (Nat.lt_succ_of_le (hl kv hkv))
      have hfile1 : (OpLog.append st t tid sid op).file =
          st.file ++ [LogLine.json (encodeMessage
            (expectedMsg (k + 1) (t, tid, sid, op)))] := by
        show st.file ++ [LogLine.json (encodeMessage
          (ProtocolMessage.generate st.counter t tid sid op).1)] = _
        rw [hpm]
      have hl1 : ∀ kv ∈ (OpLog.append st t tid sid op).oplog.log,
          kv.1 ≤ k + 1 := by
        intro kv hkv
        rw [hlog1] at hkv
        rcases List.mem_append.mp hkv with h2 | h2
        · exact Nat.le_succ_of_le (hl kv h2)
        · rw [List.mem_singleton.mp h2]
      cases rest with
      | nil =>
          refine ⟨hs1, ?_, ?_⟩
          · rw [show appendMany st [(t, tid, sid, op)] =
              OpLog.append st t tid sid op from rfl, hlog1]
            rfl
          · rw [show appendMany st [(t, tid, sid, op)] =
              OpLog.append st t tid sid op from rfl, hfile1]
            rfl
      | cons o2 rest2 =>
          have hc1 : (OpLog.append st t tid sid op).counter = k + 2 := by
            show (st.counter + 1) % u32Mod = k + 2
            rw [hc]
            exact Nat.mod_eq_of_lt (by simp only [List.length_cons] at hb; omega)
          have hrec := ih (OpLog.append st t tid sid op) (k + 1) hc1 hs1
            (by rw [hs1] at *; simp only [List.length_cons] at hb ⊢; omega) hl1
          obtain ⟨hseq2, hlog2, hfile2⟩ := hrec
          have happ : appendMany st ((t, tid, sid, op) :: o2 :: rest2) =
              appendMany (OpLog.append st t tid sid op) (o2 :: rest2) := rfl
          refine ⟨?_, ?_, ?_⟩
          · rw [happ, hseq2]
            simp only [List.length_cons]
            omega
          · rw [happ, hlog2, hlog1, List.append_assoc]
            rfl
          · rw [happ, hfile2, hfile1, List.append_assoc]
            rfl

/-- C1 amended: when a fresh process (message counter at its initial
value 1) creates a log with new and its only message creations are that
log's N appends, with N < 2^32, then every appended record's persisted
id equals the log's per-log sequence number, the map keys are dense and
monotonic 1..N, and reconstructing the log from its file yields exactly
the key set {1, ..., N} (seqno N) with the same records. -/
theorem fresh_log_dense_keys
    (ops : List (MessageType × String × String × Nat))
    (hn : ops.length < u32Mod) (hop : ∀ o ∈ ops, o.2.2.2 < u32Mod) :
    (appendMany (OpLog.new counterInit) ops).oplog.log =
      replayedEntries 1 ops ∧
    (∀ kv ∈ replayedEntries 1 ops, kv.1 = kv.2.uid) ∧
    (replayedEntries 1 ops).map Prod.fst = List.range' 1 ops.length ∧
    OpLog.from_file (some (appendMany (OpLog.new counterInit) ops).file) =
      Except.ok ⟨ops.length, replayedEntries 1 ops⟩ := by
  obtain ⟨hseq, hlog, hfile⟩ := appendMany_fresh ops (OpLog.new counterInit) 0
    rfl rfl (by omega) (by intro kv hkv; cases hkv)
  rw [show (OpLog.new counterInit).oplog.log = [] from rfl,
    List.nil_append] at hlog
  rw [show (OpLog.new counterInit).file = [] from rfl,
    List.nil_append] at hfile
  simp only [Nat.zero_add] at hseq hlog hfile
  have hbounds : ∀ m ∈ (replayedEntries 1 ops).map Prod.snd,
      m.uid < u32Mod ∧ m.opid < u32Mod := by
    intro m hm
    obtain ⟨kv, hkv, hsnd⟩ := List.mem_map.mp hm
    obtain ⟨h1, h2, h3, o, ho, h4⟩ := replayedEntries_mem ops 1 kv hkv
    subst hsnd
    refine ⟨?_, ?_⟩
    · rw [← h1]
      omega
    · rw [h4]
      show o.2.2.2 < u32Mod
      exact hop o ho
  refine ⟨hlog, ?_, replayedEntries_keys ops 1, ?_⟩
  · intro kv hkv
    exact (replayedEntries_mem ops 1 kv hkv).1
  · rw [hfile]
    have hfm : (replayedEntries 1 ops).map
        (fun kv => LogLine.json (encodeMessage kv.2)) =
        ((replayedEntries 1 ops).map Prod.snd).map
          (fun m => LogLine.json (encodeMessage m)) := by
      rw [List.map_map]
      rfl
    rw [hfm]
    have hparse : ∀ ln ∈ ((replayedEntries 1 ops).map Prod.snd).map
        (fun m => LogLine.json (encodeMessage m)),
        (parseLine ln).isSome := by
      intro ln hln
      obtain ⟨m, hm, heq⟩ := List.mem_map.mp hln
      subst heq
      have hb := hbounds m hm
      rw [show parseLine (LogLine.json (encodeMessage m)) =
        ProtocolMessage.from_string (encodeMessage m) from rfl,
        from_string_encodeMessage m hb.1 hb.2]
      rfl
    rw [from_file_ok _ hparse]
    rw [show lineMsgs (((replayedEntries 1 ops).map Prod.snd).map
      (fun m => LogLine.json (encodeMessage m))) =
      (replayedEntries 1 ops).map Prod.snd from lineMsgs_encode _ hbounds]
    have hfst := replayFold_entries_fst ops 0 ([] : List (Nat × ProtocolMessage))
    have hsnd := replayFold_entries_snd ops 1 0
      ([] : List (Nat × ProtocolMessage)) (by intro kv hkv; cases hkv)
    simp only [Nat.zero_add] at hfst
    rw [List.nil_append] at hsnd
    rw [hfst, hsnd]

/-- C1 counterexample: in a process where one message was generated
before the log's first (and only) append, the appended record sits at
map key 1 (the per-log sequence number) but carries persisted id 2, and
reconstructing the log from its file yields the key set {2} rather than
{1}: key 1 is absent. -/
theorem append_id_not_seqno_cex :
    c1State.oplog.seqno = 1 ∧
    hmGet 1 c1State.oplog.log = some
      ⟨MessageType.CoordinatorCommit, 2, "client_0_tx_1",
        "coordinator", 1⟩ ∧
    OpLog.from_file (some c1State.file) = Except.ok ⟨2,
      [(2, ⟨MessageType.CoordinatorCommit, 2, "client_0_tx_1",
        "coordinator", 1⟩)]⟩ ∧
    hmGet 1 [((2 : Nat),
      (⟨MessageType.CoordinatorCommit, 2, "client_0_tx_1",
        "coordinator", 1⟩ : ProtocolMessage))] = none :=
  ⟨rfl, rfl, rfl, rfl⟩

/-- Witness for the amended C1 at two concrete appends in a fresh
process: keys 1, 2 and a faithful reconstruction with seqno 2. -/
theorem fresh_log_dense_keys_witness :
    (replayedEntries 1 twoOps).map Prod.fst = List.range' 1 2 ∧
    OpLog.from_file (some (appendMany (OpLog.new counterInit) twoOps).file) =
      Except.ok ⟨2, replayedEntries 1 twoOps⟩ :=
  ⟨(fresh_log_dense_keys twoOps (by decide) (by decide)).2.2.1,
   (fresh_log_dense_keys twoOps (by decide) (by decide)).2.2.2⟩

/-- Witness for C10 at a concrete two-line file with duplicate id 5: the
reconstructed map resolves key 5 to the last such line's message. -/
theorem from_file_duplicate_ids_last_wins_witness :
    hmGet 5 (replayFold (lineMsgs dupLines) 0 []).2 =
      findLastUid 5 (lineMsgs dupLines) ∧
    findLastUid 5 (lineMsgs dupLines) = some dupMsgB :=
  ⟨(from_file_duplicate_ids_last_wins dupLines (by decide)).2.1 5, rfl⟩
